import Mathlib

/-!
# Verification of the Member Merger (Label Studio annotation/image merger)

Shallow embedding of `MemberMerger.py`: the task-key resolver (`task_key`),
the annotation merger (`merge_ls_tasks`), the archive flattener
(`extract_and_flatten_zips`) and the CLI orchestrator (`main`), together with
proofs and refutations of the specified properties.

Modelling conventions:
* Python dicts with the fixed fields the code reads become Lean structures;
  an absent field is `Option.none`.
* Each structure carries an extra `origin : Bool` ghost flag used only to
  track object identity for the frame/mutation claims: inputs may be marked
  `origin := true`, `json.loads(json.dumps -)` deep copies reset the flag to
  `false`, and every in-place write performed by the code records the flag of
  its target object, so a raised mutation flag would witness a write into a
  contributor's original input.
* Cryptographic digests (`hashlib.md5`, `hashlib.sha1`) are infeasible to
  embed; the functions that use them are parametrized by the digest function.
  Concrete instantiations in counterexamples use the true SHA-1 values of the
  byte strings involved (computed externally and checkable with any SHA-1
  tool), so the refutations re-trace on the real code.
* Machine-level concerns (file descriptors, OS errors ignored by
  `shutil.rmtree(-, ignore_errors=True)`) are abstracted: filesystem
  operations succeed, directories are finite association lists.
-/

namespace MM

/-- One entry of an annotation's `result` list.  `rid` models the `"id"` key
(`none` = absent); `payload` stands for all remaining content of the entry
(its serialized form);  `origin` is the ghost identity flag. -/
structure ResultEntry where
  rid : Option String
  payload : String
  origin : Bool
deriving DecidableEq

/-- One annotation: `aid` models the `"id"` key, `result` the `"result"`
list (`none` = absent), `payload` the remaining content. -/
structure Ann where
  aid : Option Nat
  result : Option (List ResultEntry)
  payload : String
  origin : Bool
deriving DecidableEq

/-- The `data` sub-dict of a task; the code only reads `data.get("image", "")`. -/
structure TaskData where
  image : Option String
deriving DecidableEq

/-- A Label Studio task as read by the code: `file_upload`, `data`,
`annotations` (all possibly absent), plus untouched remaining content. -/
structure Task where
  fileUpload : Option String
  data : Option TaskData
  annotations : Option (List Ann)
  payload : String
  origin : Bool
deriving DecidableEq

/-- `json.loads(json.dumps(r))` on a result entry: same content, fresh object. -/
def deepCopyR (r : ResultEntry) : ResultEntry :=
  { r with origin := false }

/-- `json.loads(json.dumps(a))` on an annotation: same content, fresh objects
throughout. -/
def deepCopyAnn (a : Ann) : Ann :=
  { a with origin := false, result := a.result.map (List.map deepCopyR) }

/-- `json.loads(json.dumps(t))` on a task: same content, fresh objects
throughout. -/
def deepCopyTask (t : Task) : Task :=
  { t with origin := false, annotations := t.annotations.map (List.map deepCopyAnn) }

/-- POSIX `pathlib.Path(s).name`: split on `/`, drop empty and `.` components
(pathlib normalizes both away), keep `..`, return the last component or `""`. -/
def pathName (s : String) : String :=
  (((s.splitOn "/").filter fun c => !(c == "") && !(c == ".")).getLast?).getD ""

/-- `(task.get("data") or {}).get("image", "")`. -/
def imgRef (t : Task) : String :=
  match t.data with
  | some d => d.image.getD ""
  | none => ""

/-- `Path(img).name or str(img)`: the basename of the image reference, or the
raw reference when the basename is empty. -/
def imgKey (t : Task) : String :=
  if pathName (imgRef t) = "" then imgRef t else pathName (imgRef t)

/-- `task_key` (MemberMerger.py:48-53): return `file_upload` when truthy,
else fall back to the image reference's basename. -/
def taskKey (t : Task) : String :=
  match t.fileUpload with
  | some fu => if fu = "" then imgKey t else fu
  | none => imgKey t

/-- Modelled from the spec's words (§4.2), for comparison with `taskKey`:
if an upload identifier is present and non-empty, return it verbatim;
otherwise return the base filename portion of the image reference, or the
raw reference if no filename can be extracted. -/
def keySpec (t : Task) : String :=
  let u := t.fileUpload.getD ""
  if u ≠ "" then u
  else
    let raw := imgRef t
    let base := pathName raw
    if base ≠ "" then base else raw

/-- C7: the task key resolver returns the upload identifier verbatim when it
is present and non-empty; otherwise the base filename portion of the image
reference (directory path stripped), or the raw reference when no filename
can be extracted. -/
theorem taskKey_eq_keySpec (t : Task) : taskKey t = keySpec t := by
  rcases t with ⟨fu, d, anns, p, o⟩
  cases fu with
  | none =>
      simp only [taskKey, keySpec, imgKey, Option.getD]
      split <;> simp_all
  | some s =>
      by_cases hs : s = ""
      · subst hs
        simp only [taskKey, keySpec, imgKey, Option.getD]
        split <;> simp_all
      · simp [taskKey, keySpec, imgKey, hs]

/-! ## A decimal printer with proved injectivity

`merge_ls_tasks` renders the new annotation identifier in decimal inside the
synthesized result identifier (`f"res_{ann_copy['id']}_{...}"`).  We embed
that rendering with an executable printer whose injectivity we prove, so the
distinctness of synthesized identifiers can be settled. -/

/-- Little-endian decimal digits, with explicit fuel for structural
recursion; any `fuel ≥ n` gives the same result. -/
def decDigitsAux : Nat → Nat → List Nat
  | 0, _ => []
  | fuel + 1, n => if n = 0 then [] else n % 10 :: decDigitsAux fuel (n / 10)

/-- Little-endian decimal digits of `n` (`[]` for `0`). -/
def decDigits (n : Nat) : List Nat := decDigitsAux n n

theorem decDigitsAux_congr :
    ∀ f1 f2 n : Nat, n ≤ f1 → n ≤ f2 → decDigitsAux f1 n = decDigitsAux f2 n := by
  intro f1
  induction f1 with
  | zero =>
      intro f2 n h1 _
      interval_cases n
      cases f2 <;> simp [decDigitsAux]
  | succ f ih =>
      intro f2 n h1 h2
      by_cases hn : n = 0
      · subst hn; cases f2 <;> simp [decDigitsAux]
      · have hpos : 0 < n := Nat.pos_of_ne_zero hn
        obtain ⟨f2', rfl⟩ : ∃ f2', f2 = f2' + 1 :=
          ⟨f2 - 1, by omega⟩
        have hdiv : n / 10 < n := Nat.div_lt_self hpos (by norm_num)
        simp only [decDigitsAux, if_neg hn]
        exact congrArg _ (ih f2' (n / 10) (by omega) (by omega))

theorem decDigits_eq (n : Nat) :
    decDigits n = if n = 0 then [] else n % 10 :: decDigits (n / 10) := by
  by_cases hn : n = 0
  · subst hn; simp [decDigits, decDigitsAux]
  · have hpos : 0 < n := Nat.pos_of_ne_zero hn
    obtain ⟨m, rfl⟩ : ∃ m, n = m + 1 := ⟨n - 1, by omega⟩
    have hdiv : (m + 1) / 10 < m + 1 := Nat.div_lt_self hpos (by norm_num)
    simp only [decDigits, decDigitsAux, if_neg hn]
    exact congrArg _ (decDigitsAux_congr m ((m + 1) / 10) ((m + 1) / 10)
      (by omega) (le_refl _))

/-- Value of a little-endian decimal digit list. -/
def decVal : List Nat → Nat
  | [] => 0
  | d :: ds => d + 10 * decVal ds

theorem decVal_decDigits (n : Nat) : decVal (decDigits n) = n := by
  induction n using Nat.strong_induction_on with
  | _ n ih =>
    rw [decDigits_eq]
    by_cases hn : n = 0
    · simp [hn, decVal]
    · have hpos : 0 < n := Nat.pos_of_ne_zero hn
      have hdiv : n / 10 < n := Nat.div_lt_self hpos (by norm_num)
      simp only [if_neg hn, decVal, ih (n / 10) hdiv]
      omega

theorem decDigits_injective : Function.Injective decDigits :=
  Function.LeftInverse.injective decVal_decDigits

theorem decDigits_lt_ten (n : Nat) : ∀ x ∈ decDigits n, x < 10 := by
  induction n using Nat.strong_induction_on with
  | _ n ih =>
    rw [decDigits_eq]
    by_cases hn : n = 0
    · simp [hn]
    · have hpos : 0 < n := Nat.pos_of_ne_zero hn
      have hdiv : n / 10 < n := Nat.div_lt_self hpos (by norm_num)
      simp only [if_neg hn, List.mem_cons]
      rintro x (rfl | hx)
      · exact Nat.mod_lt _ (by norm_num)
      · exact ih (n / 10) hdiv x hx

/-- A decimal digit character. -/
def digitChar : Nat → Char
  | 0 => '0'
  | 1 => '1'
  | 2 => '2'
  | 3 => '3'
  | 4 => '4'
  | 5 => '5'
  | 6 => '6'
  | 7 => '7'
  | 8 => '8'
  | _ => '9'

theorem digitChar_inj {a b : Nat} (ha : a < 10) (hb : b < 10)
    (h : digitChar a = digitChar b) : a = b := by
  interval_cases a <;> interval_cases b <;> simp_all [digitChar]

theorem map_digitChar_inj :
    ∀ l1 l2 : List Nat, (∀ x ∈ l1, x < 10) → (∀ x ∈ l2, x < 10) →
      l1.map digitChar = l2.map digitChar → l1 = l2 := by
  intro l1
  induction l1 with
  | nil => intro l2 _ _ h; cases l2 <;> simp_all
  | cons a l ih =>
      intro l2 h1 h2 h
      cases l2 with
      | nil => simp_all
      | cons b l' =>
          simp only [List.map_cons, List.cons.injEq] at h
          have hab := digitChar_inj (h1 a (by simp)) (h2 b (by simp)) h.1
          have := ih l' (fun x hx => h1 x (by simp [hx]))
            (fun x hx => h2 x (by simp [hx])) h.2
          simp [hab, this]

/-- Decimal rendering of a natural number, as produced by Python's `str`
inside the f-string `f"res_{ann_copy['id']}_{...}"`. -/
def natRepr (n : Nat) : String :=
  if n = 0 then "0" else String.mk (((decDigits n).map digitChar).reverse)

theorem natRepr_inj {m n : Nat} (h : natRepr m = natRepr n) : m = n := by
  unfold natRepr at h
  have key : ∀ k : Nat, k ≠ 0 →
      String.mk (((decDigits k).map digitChar).reverse) ≠ "0" := by
    intro k hk hcontra
    have hdata : ((decDigits k).map digitChar).reverse = ['0'] := by
      have := congrArg String.data hcontra
      simpa using this
    have hmap : (decDigits k).map digitChar = ['0'] := by
      have := congrArg List.reverse hdata
      simpa using this
    have : decDigits k = [0] := by
      apply map_digitChar_inj _ [0] (decDigits_lt_ten k) (by norm_num)
      simpa [digitChar] using hmap
    have := congrArg decVal this
    rw [decVal_decDigits] at this
    simp [decVal] at this
    exact hk this
  by_cases hm : m = 0 <;> by_cases hn : n = 0
  · omega
  · subst hm; simp only [if_pos rfl, if_neg hn] at h
    exact absurd h.symm (key n hn)
  · subst hn; simp only [if_pos rfl, if_neg hm] at h
    exact absurd h (key m hm)
  · simp only [if_neg hm, if_neg hn] at h
    have hdata : ((decDigits m).map digitChar).reverse
        = ((decDigits n).map digitChar).reverse := by
      have := congrArg String.data h
      simpa using this
    have hmap := congrArg List.reverse hdata
    simp only [List.reverse_reverse] at hmap
    exact decDigits_injective
      (map_digitChar_inj _ _ (decDigits_lt_ten m) (decDigits_lt_ten n) hmap)

/-! ## The annotation merger (`merge_ls_tasks`, MemberMerger.py:55-83) -/

/-- `len(t.get("annotations", []))`. -/
def annLen (t : Task) : Nat := (t.annotations.getD []).length

/-- Stable descending insertion: `t` stays behind strictly larger keys and
goes before equal ones (equal-key elements keep their original relative
order, and `t` comes from an earlier input position). -/
def insertDesc (t : Task) : List Task → List Task
  | [] => [t]
  | u :: us => if annLen t < annLen u then u :: insertDesc t us else t :: u :: us

/-- `sorted(tasks, key=lambda t: len(t.get("annotations", [])), reverse=True)`:
Python's sort is stable, so this is stable descending insertion sort. -/
def sortDescByAnns : List Task → List Task
  | [] => []
  | t :: ts => insertDesc t (sortDescByAnns ts)

/-- Maximal annotation count in a group. -/
def maxAnn (g : List Task) : Nat := (g.map annLen).foldr Nat.max 0

/-- Modelled from the spec's words (§4.3 step 1): the task in the group with
the most annotations, ties broken by first-seen order. -/
def firstMaxSpec (g : List Task) : Option Task :=
  g.find? fun t => annLen t == maxAnn g

/-- The synthesized result identifier
`f"res_{ann_copy['id']}_{hashlib.md5(str(r).encode()).hexdigest()[:6]}"`,
parametrized by `digest6`, the model of the 6-hex-character truncation of
the MD5 of the entry's serialized form. -/
def synthRid (digest6 : ResultEntry → String) (i : Nat) (r : ResultEntry) : String :=
  "res_" ++ natRepr i ++ "_" ++ digest6 r

/-- `r["id"] = r.get("id") or f"res_..."` on one result entry of the copied
annotation: keep a truthy identifier, otherwise synthesize one.  The second
component is the identity flag of the written-to object. -/
def updEntry (digest6 : ResultEntry → String) (i : Nat) (r : ResultEntry) :
    ResultEntry × Bool :=
  ({ r with rid :=
      match r.rid with
      | some s => if s = "" then some (synthRid digest6 i r) else some s
      | none => some (synthRid digest6 i r) }, r.origin)

/-- Body of the reassignment loop for one annotation: deep-copy, assign the
new identifier `i`, then fix up result identifiers.  The flag collects the
identity flags of all written-to objects. -/
def assignAnn (digest6 : ResultEntry → String) (i : Nat) (a : Ann) : Ann × Bool :=
  let c := deepCopyAnn a
  match c.result with
  | none => ({ c with aid := some i }, c.origin)
  | some rs =>
      let prs := rs.map (updEntry digest6 i)
      ({ c with aid := some i, result := some (prs.map Prod.fst) },
       c.origin || prs.any Prod.snd)

/-- The whole `for ann in all_anns` loop, with `next_id` starting at `i`. -/
def reassignFrom (digest6 : ResultEntry → String) : Nat → List Ann → List Ann × Bool
  | _, [] => ([], false)
  | i, a :: as =>
      let p := assignAnn digest6 i a
      let q := reassignFrom digest6 (i + 1) as
      (p.1 :: q.1, p.2 || q.2)

/-- `all_anns`: every annotation of every task of the group, in group order,
each task's annotations in their original order; an absent `annotations`
field contributes nothing. -/
def collectAnns (g : List Task) : List Ann :=
  (g.map fun t => t.annotations.getD []).flatten

/-- Placeholder for the unreachable empty-group case (`tasks_sorted[0]` would
raise on an empty group; merge groups are nonempty by construction). -/
def dummyTask : Task := ⟨none, none, none, "", false⟩

/-- Merge one group of tasks sharing a key (the body of the
`for _, tasks in bucket.items()` loop).  Returns the merged task and the
mutation ghost flag. -/
def mergeGroup (digest6 : ResultEntry → String) (g : List Task) : Task × Bool :=
  match sortDescByAnns g with
  | [] => (dummyTask, false)
  | b0 :: _ =>
      let base := deepCopyTask b0
      let p := reassignFrom digest6 1 (collectAnns g)
      ({ base with annotations := some p.1 }, base.origin || p.2)

/-- `bucket[task_key(t)].append(t)` on an insertion-ordered association list
(Python dicts preserve insertion order). -/
def bucketInsert (k : String) (t : Task) :
    List (String × List Task) → List (String × List Task)
  | [] => [(k, [t])]
  | (k', g) :: rest =>
      if k' = k then (k', g ++ [t]) :: rest else (k', g) :: bucketInsert k t rest

/-- The grouping loop of `merge_ls_tasks`, over the flattened task stream
(`for tl in task_lists: for t in tl`). -/
def buildBucket (ts : List Task) : List (String × List Task) :=
  ts.foldl (fun b t => bucketInsert (taskKey t) t b) []

/-- `merge_ls_tasks(task_lists)`: group all tasks by key, merge each group.
Second component: the ghost flag recording whether any in-place write
targeted an original input object rather than a fresh copy. -/
def mergeLsTasks (digest6 : ResultEntry → String) (tls : List (List Task)) :
    List Task × Bool :=
  let pairs := (buildBucket tls.flatten).map fun e => mergeGroup digest6 e.2
  (pairs.map Prod.fst, pairs.any Prod.snd)

/-! ## Grouping lemmas -/

/-- The group stored under key `k` (empty when `k` is absent). -/
def groupVal (b : List (String × List Task)) (k : String) : List Task :=
  (((b.find? fun e => e.1 == k)).map Prod.snd).getD []

/-- The keys of the bucket, in insertion order. -/
def bucketKeys (b : List (String × List Task)) : List String :=
  b.map Prod.fst

theorem groupVal_bucketInsert (k' : String) (t : Task)
    (b : List (String × List Task)) (k : String) :
    groupVal (bucketInsert k' t b) k
      = groupVal b k ++ if k' = k then [t] else [] := by
  induction b with
  | nil =>
      by_cases h : k' = k <;> simp [groupVal, bucketInsert, h]
  | cons e rest ih =>
      obtain ⟨k0, g0⟩ := e
      by_cases h0 : k0 = k'
      · subst h0
        by_cases hk : k0 = k
        · subst hk; simp [groupVal, bucketInsert]
        · simp [groupVal, bucketInsert, hk] at ih ⊢
      · by_cases hk : k0 = k
        · subst hk
          have hne : ¬ k' = k0 := fun hc => h0 hc.symm
          simp [groupVal, bucketInsert, h0, hne]
        · simp only [bucketInsert, if_neg h0]
          simp [groupVal, hk] at ih ⊢
          exact ih

theorem bucketKeys_bucketInsert (k' : String) (t : Task)
    (b : List (String × List Task)) :
    bucketKeys (bucketInsert k' t b)
      = if k' ∈ bucketKeys b then bucketKeys b else bucketKeys b ++ [k'] := by
  induction b with
  | nil => simp [bucketKeys, bucketInsert]
  | cons e rest ih =>
      obtain ⟨k0, g0⟩ := e
      by_cases h0 : k0 = k'
      · subst h0; simp [bucketKeys, bucketInsert]
      · have hne : ¬ k' = k0 := fun hc => h0 hc.symm
        simp only [bucketInsert, if_neg h0, bucketKeys, List.map_cons,
          List.mem_cons]
        simp only [bucketKeys] at ih
        rw [ih]
        by_cases hmem : k' ∈ rest.map Prod.fst <;> simp [hmem, hne]

theorem nodup_bucketKeys_bucketInsert (k' : String) (t : Task)
    (b : List (String × List Task)) (h : (bucketKeys b).Nodup) :
    (bucketKeys (bucketInsert k' t b)).Nodup := by
  rw [bucketKeys_bucketInsert]
  by_cases hmem : k' ∈ bucketKeys b <;> simp [hmem, h, List.nodup_append]

theorem mem_bucketKeys_bucketInsert (k' : String) (t : Task)
    (b : List (String × List Task)) (k : String) :
    k ∈ bucketKeys (bucketInsert k' t b) ↔ k ∈ bucketKeys b ∨ k = k' := by
  rw [bucketKeys_bucketInsert]
  by_cases hmem : k' ∈ bucketKeys b
  · simp only [if_pos hmem]
    constructor
    · exact Or.inl
    · rintro (h | rfl) <;> [exact h; exact hmem]
  · simp [if_neg hmem]

theorem groupVal_foldl (ts : List Task) :
    ∀ (b : List (String × List Task)) (k : String),
      groupVal (ts.foldl (fun b t => bucketInsert (taskKey t) t b) b) k
        = groupVal b k ++ ts.filter fun t => taskKey t == k := by
  induction ts with
  | nil => simp
  | cons t ts ih =>
      intro b k
      simp only [List.foldl_cons]
      rw [ih, groupVal_bucketInsert]
      by_cases h : taskKey t = k <;>
        simp [h, List.filter_cons]

theorem groupVal_buildBucket (ts : List Task) (k : String) :
    groupVal (buildBucket ts) k = ts.filter fun t => taskKey t == k := by
  have := groupVal_foldl ts [] k
  simpa [buildBucket, groupVal] using this

theorem nodup_bucketKeys_buildBucket (ts : List Task) :
    (bucketKeys (buildBucket ts)).Nodup := by
  suffices h : ∀ b : List (String × List Task), (bucketKeys b).Nodup →
      (bucketKeys (ts.foldl (fun b t => bucketInsert (taskKey t) t b) b)).Nodup by
    exact h [] (by simp [bucketKeys])
  induction ts with
  | nil => intro b hb; simpa using hb
  | cons t ts ih =>
      intro b hb
      simp only [List.foldl_cons]
      exact ih _ (nodup_bucketKeys_bucketInsert _ _ _ hb)

theorem mem_bucketKeys_buildBucket (ts : List Task) (k : String) :
    k ∈ bucketKeys (buildBucket ts) ↔ ∃ t ∈ ts, taskKey t = k := by
  suffices h : ∀ b : List (String × List Task),
      k ∈ bucketKeys (ts.foldl (fun b t => bucketInsert (taskKey t) t b) b)
        ↔ k ∈ bucketKeys b ∨ ∃ t ∈ ts, taskKey t = k by
    have := h []
    simpa [buildBucket, bucketKeys] using this
  induction ts with
  | nil => intro b; simp
  | cons t ts ih =>
      intro b
      simp only [List.foldl_cons]
      rw [ih, mem_bucketKeys_bucketInsert]
      constructor
      · rintro ((h | rfl) | ⟨u, hu, hk⟩)
        · exact Or.inl h
        · exact Or.inr ⟨t, by simp⟩
        · exact Or.inr ⟨u, by simp [hu], hk⟩
      · rintro (h | ⟨u, hu, hk⟩)
        · exact Or.inl (Or.inl h)
        · rcases List.mem_cons.mp hu with rfl | hu'
          · exact Or.inl (Or.inr hk.symm)
          · exact Or.inr ⟨u, hu', hk⟩

theorem find?_of_mem_nodupKeys :
    ∀ b : List (String × List Task), (bucketKeys b).Nodup →
      ∀ e ∈ b, (b.find? fun x => x.1 == e.1) = some e := by
  intro b
  induction b with
  | nil => intro _ e he; simp at he
  | cons e0 rest ih =>
      intro hnd e he
      have hnd' : (bucketKeys rest).Nodup := (List.nodup_cons.mp hnd).2
      rcases List.mem_cons.mp he with rfl | he'
      · simp
      · have hne : e0.1 ≠ e.1 := by
          intro hc
          have : e0.1 ∈ bucketKeys rest := by
            simpa [bucketKeys, hc] using List.mem_map_of_mem Prod.fst he'
          exact (List.nodup_cons.mp hnd).1 this
        rw [List.find?_cons_of_neg _ (by simp [hne])]
        exact ih hnd' e he'

/-- Every bucket entry's group is exactly the key-filtered task stream, and
every group is nonempty. -/
theorem bucket_entry_char (ts : List Task) (e : String × List Task)
    (he : e ∈ buildBucket ts) :
    e.2 = (ts.filter fun t => taskKey t == e.1) ∧ e.2 ≠ [] := by
  have hfind := find?_of_mem_nodupKeys (buildBucket ts)
    (nodup_bucketKeys_buildBucket ts) e he
  have hval : groupVal (buildBucket ts) e.1 = e.2 := by
    simp [groupVal, hfind]
  have hchar := groupVal_buildBucket ts e.1
  refine ⟨by rw [← hval, hchar], ?_⟩
  have hkeys : e.1 ∈ bucketKeys (buildBucket ts) :=
    by simpa [bucketKeys] using List.mem_map_of_mem Prod.fst he
  obtain ⟨t, ht, hk⟩ := (mem_bucketKeys_buildBucket ts e.1).mp hkeys
  intro hnil
  rw [← hval, hchar] at hnil
  have : t ∈ (ts.filter fun t => taskKey t == e.1) :=
    List.mem_filter.mpr ⟨ht, by simp [hk]⟩
  simp [hnil] at this

/-! ## Sorting and reassignment lemmas -/

theorem length_insertDesc (t : Task) (l : List Task) :
    (insertDesc t l).length = l.length + 1 := by
  induction l with
  | nil => rfl
  | cons u us ih => simp only [insertDesc]; split <;> simp [ih]

theorem sortDescByAnns_eq_nil_iff (g : List Task) :
    sortDescByAnns g = [] ↔ g = [] := by
  cases g with
  | nil => simp [sortDescByAnns]
  | cons t ts =>
      simp only [sortDescByAnns]
      constructor
      · intro h
        have := congrArg List.length h
        simp [length_insertDesc] at this
      · intro h; simp at h

theorem head?_insertDesc (t : Task) (l : List Task) :
    (insertDesc t l).head? =
      some (match l.head? with
            | none => t
            | some u => if annLen t < annLen u then u else t) := by
  cases l with
  | nil => rfl
  | cons u us =>
      simp only [insertDesc, List.head?_cons]
      split <;> simp

/-- The head of the stable descending sort is the first task attaining the
maximal annotation count. -/
theorem head?_sortDescByAnns (g : List Task) :
    (sortDescByAnns g).head? = firstMaxSpec g := by
  induction g with
  | nil => rfl
  | cons t ts ih =>
      simp only [sortDescByAnns]
      rw [head?_insertDesc]
      cases hs : (sortDescByAnns ts).head? with
      | none =>
          have hts : ts = [] :=
            (sortDescByAnns_eq_nil_iff ts).mp (List.head?_eq_none_iff.mp hs)
          subst hts
          simp [firstMaxSpec, maxAnn, annLen]
      | some u =>
          have hu : firstMaxSpec ts = some u := by rw [← ih, hs]
          have hpu : annLen u = maxAnn ts := by
            have := List.find?_some hu
            simpa using this
          have hmax : maxAnn (t :: ts) = Nat.max (annLen t) (maxAnn ts) := rfl
          by_cases hlt : annLen t < annLen u
          · simp only [if_pos hlt]
            have hmax' : maxAnn (t :: ts) = annLen u := by
              rw [hmax, ← hpu]
              exact Nat.max_eq_right (le_of_lt hlt)
            rw [firstMaxSpec, List.find?_cons_of_neg _ (by simp [hmax']; omega)]
            have hts : firstMaxSpec ts = some u := hu
            unfold firstMaxSpec at hts
            rw [hmax']
            rw [← hpu] at hts
            exact hts.symm
          · simp only [if_neg hlt]
            have hmax' : maxAnn (t :: ts) = annLen t := by
              rw [hmax, ← hpu]
              exact Nat.max_eq_left (Nat.le_of_not_lt hlt)
            rw [firstMaxSpec, List.find?_cons_of_pos _ (by simp [hmax'])]

theorem assignAnn_aid (digest6 : ResultEntry → String) (i : Nat) (a : Ann) :
    (assignAnn digest6 i a).1.aid = some i := by
  cases hres : a.result <;> simp [assignAnn, deepCopyAnn, hres]

theorem assignAnn_payload (digest6 : ResultEntry → String) (i : Nat) (a : Ann) :
    (assignAnn digest6 i a).1.payload = a.payload := by
  cases hres : a.result <;> simp [assignAnn, deepCopyAnn, hres]

theorem assignAnn_origin (digest6 : ResultEntry → String) (i : Nat) (a : Ann) :
    (assignAnn digest6 i a).1.origin = false := by
  cases hres : a.result <;> simp [assignAnn, deepCopyAnn, hres]

theorem assignAnn_flag (digest6 : ResultEntry → String) (i : Nat) (a : Ann) :
    (assignAnn digest6 i a).2 = false := by
  cases hres : a.result <;>
    simp [assignAnn, deepCopyAnn, hres, List.any_map, updEntry, deepCopyR,
      Function.comp]

theorem assignAnn_result_origin (digest6 : ResultEntry → String) (i : Nat)
    (a : Ann) :
    ∀ r ∈ (assignAnn digest6 i a).1.result.getD [], r.origin = false := by
  cases hres : a.result with
  | none => simp [assignAnn, deepCopyAnn, hres]
  | some rs =>
      intro r hr
      simp only [assignAnn, deepCopyAnn, hres, Option.map_some,
        Option.getD_some, List.map_map] at hr
      obtain ⟨r0, hr0, hr0eq⟩ := List.mem_map.mp hr
      rw [← hr0eq]
      simp only [updEntry, Function.comp]
      obtain ⟨r1, _, hr1⟩ := List.mem_map.mp hr0
      rw [← hr1]
      simp [deepCopyR]

theorem reassignFrom_length (digest6 : ResultEntry → String) :
    ∀ (as : List Ann) (i : Nat),
      (reassignFrom digest6 i as).1.length = as.length := by
  intro as
  induction as with
  | nil => intro i; rfl
  | cons a as ih => intro i; simp [reassignFrom, ih]

theorem reassignFrom_aids (digest6 : ResultEntry → String) :
    ∀ (as : List Ann) (i : Nat),
      ((reassignFrom digest6 i as).1.map fun a => a.aid)
        = (List.range as.length).map fun j => some (i + j) := by
  intro as
  induction as with
  | nil => intro i; rfl
  | cons a as ih =>
      intro i
      simp only [reassignFrom, List.map_cons, List.length_cons,
        List.range_succ_eq_map, assignAnn_aid, ih, List.map_map]
      have hfun : ((fun j => some (i + j)) ∘ Nat.succ)
          = fun j => some ((i + 1) + j) := by
        funext j
        exact congrArg some (by omega)
      rw [hfun]
      simp

theorem reassignFrom_payloads (digest6 : ResultEntry → String) :
    ∀ (as : List Ann) (i : Nat),
      ((reassignFrom digest6 i as).1.map fun a => a.payload)
        = as.map fun a => a.payload := by
  intro as
  induction as with
  | nil => intro i; rfl
  | cons a as ih =>
      intro i
      simp [reassignFrom, assignAnn_payload, ih]

theorem reassignFrom_flag (digest6 : ResultEntry → String) :
    ∀ (as : List Ann) (i : Nat), (reassignFrom digest6 i as).2 = false := by
  intro as
  induction as with
  | nil => intro i; rfl
  | cons a as ih =>
      intro i
      simp [reassignFrom, assignAnn_flag, ih]

theorem reassignFrom_origins (digest6 : ResultEntry → String) :
    ∀ (as : List Ann) (i : Nat), ∀ a' ∈ (reassignFrom digest6 i as).1,
      a'.origin = false ∧ ∀ r ∈ a'.result.getD [], r.origin = false := by
  intro as
  induction as with
  | nil => intro i a' h; simp [reassignFrom] at h
  | cons a as ih =>
      intro i a' h
      simp only [reassignFrom, List.mem_cons] at h
      rcases h with rfl | h'
      · exact ⟨assignAnn_origin digest6 i a, assignAnn_result_origin digest6 i a⟩
      · exact ih (i + 1) a' h'

/-! ## Merge-group characterization -/

theorem mergeGroup_char (digest6 : ResultEntry → String) (g : List Task)
    (hne : g ≠ []) :
    ∃ b0, firstMaxSpec g = some b0 ∧
      (mergeGroup digest6 g).1
        = { deepCopyTask b0 with
            annotations := some (reassignFrom digest6 1 (collectAnns g)).1 } := by
  cases hs : sortDescByAnns g with
  | nil => exact absurd ((sortDescByAnns_eq_nil_iff g).mp hs) hne
  | cons b0 rest =>
      refine ⟨b0, ?_, ?_⟩
      · rw [← head?_sortDescByAnns, hs]; rfl
      · simp [mergeGroup, hs]

theorem mergeGroup_flag (digest6 : ResultEntry → String) (g : List Task) :
    (mergeGroup digest6 g).2 = false := by
  cases hs : sortDescByAnns g with
  | nil => simp [mergeGroup, hs]
  | cons b0 rest =>
      simp [mergeGroup, hs, deepCopyTask, reassignFrom_flag]

theorem taskKey_fields (t t' : Task) (h1 : t.fileUpload = t'.fileUpload)
    (h2 : t.data = t'.data) : taskKey t = taskKey t' := by
  unfold taskKey imgKey imgRef
  rw [h1, h2]

theorem taskKey_mergeGroup (digest6 : ResultEntry → String) (g : List Task)
    (k : String) (hne : g ≠ []) (hall : ∀ t ∈ g, taskKey t = k) :
    taskKey (mergeGroup digest6 g).1 = k := by
  obtain ⟨b0, hb0, hmg⟩ := mergeGroup_char digest6 g hne
  have hmem : b0 ∈ g := List.mem_of_find?_eq_some hb0
  rw [hmg, taskKey_fields _ b0 (by simp [deepCopyTask]) (by simp [deepCopyTask])]
  exact hall b0 hmem

theorem mergeGroup_no_origin (digest6 : ResultEntry → String) (g : List Task) :
    (mergeGroup digest6 g).1.origin = false ∧
      ∀ a ∈ (mergeGroup digest6 g).1.annotations.getD [],
        a.origin = false ∧ ∀ r ∈ a.result.getD [], r.origin = false := by
  cases hs : sortDescByAnns g with
  | nil => simp [mergeGroup, hs, dummyTask]
  | cons b0 rest =>
      constructor
      · simp [mergeGroup, hs, deepCopyTask]
      · intro a ha
        simp only [mergeGroup, hs, Option.getD_some] at ha
        exact reassignFrom_origins digest6 (collectAnns g) 1 a ha

theorem filter_merged (digest6 : ResultEntry → String) :
    ∀ b : List (String × List Task), (bucketKeys b).Nodup →
      (∀ e ∈ b, taskKey (mergeGroup digest6 e.2).1 = e.1) →
      ∀ k ∈ bucketKeys b,
        ∃ g, (k, g) ∈ b ∧
          ((b.map fun e => (mergeGroup digest6 e.2).1).filter
              fun m => taskKey m == k) = [(mergeGroup digest6 g).1] := by
  intro b
  induction b with
  | nil => intro _ _ k hk; simp [bucketKeys] at hk
  | cons e rest ih =>
      intro hnd hkeys k hk
      obtain ⟨k0, g0⟩ := e
      have hndc : (k0 :: bucketKeys rest).Nodup := by
        simpa only [bucketKeys, List.map_cons] using hnd
      have hnd' : (bucketKeys rest).Nodup := (List.nodup_cons.mp hndc).2
      have hnotmem : k0 ∉ bucketKeys rest := (List.nodup_cons.mp hndc).1
      have hkeys' : ∀ e ∈ rest, taskKey (mergeGroup digest6 e.2).1 = e.1 :=
        fun e he => hkeys e (by simp [he])
      have hkcons : k ∈ k0 :: bucketKeys rest := by
        simpa only [bucketKeys, List.map_cons] using hk
      rcases List.mem_cons.mp hkcons with rfl | hk'
      · refine ⟨g0, by simp, ?_⟩
        simp only [List.map_cons, List.filter_cons]
        have hkey0 : taskKey (mergeGroup digest6 g0).1 = k :=
          hkeys (k, g0) (by simp)
        rw [if_pos (by simp [hkey0])]
        have htail : ∀ m ∈ rest.map fun e => (mergeGroup digest6 e.2).1,
            ¬ ((taskKey m == k) = true) := by
          intro m hm
          obtain ⟨e', he', rfl⟩ := List.mem_map.mp hm
          have : taskKey (mergeGroup digest6 e'.2).1 = e'.1 := hkeys' e' he'
          have hne : e'.1 ≠ k := by
            intro hc
            exact hnotmem (by
              simpa [bucketKeys, hc] using List.mem_map_of_mem Prod.fst he')
          simp [this, hne]
        rw [List.filter_eq_nil_iff.mpr htail]
      · have hne : k0 ≠ k := by
          intro hc
          subst hc
          exact hnotmem hk'
        obtain ⟨g, hg, hfil⟩ := ih hnd' hkeys' k hk'
        refine ⟨g, by simp [hg], ?_⟩
        simp only [List.map_cons, List.filter_cons]
        have hkey0 : taskKey (mergeGroup digest6 g0).1 = k0 :=
          hkeys (k0, g0) (by simp)
        rw [if_neg (by simp [hkey0, hne]), hfil]

/-! ## Concrete fixtures (spec §8 scenario: one contributor has 1
annotation on `img1.jpg`, the other has 2) -/

/-- Contributor A's single annotation on `img1.jpg`. -/
def cAnn1 : Ann := ⟨none, some [⟨none, "r1", true⟩], "A1", true⟩

/-- Contributor B's first annotation. -/
def cAnn2 : Ann := ⟨some 7, none, "A2", true⟩

/-- Contributor B's second annotation. -/
def cAnn3 : Ann := ⟨none, some [], "A3", true⟩

/-- Contributor A's task for `img1.jpg`. -/
def cTask1 : Task := ⟨some "img1.jpg", none, some [cAnn1], "T1", true⟩

/-- Contributor B's task for `img1.jpg`. -/
def cTask2 : Task := ⟨some "img1.jpg", none, some [cAnn2, cAnn3], "T2", true⟩

/-- The merged task the code produces for the fixture (base is contributor
B's task — it has more annotations — with the three collected annotations
re-identified 1, 2, 3). -/
def cMerged1 : Task :=
  ⟨some "img1.jpg", none,
    some [⟨some 1, some [⟨some "res_1_aaaaaa", "r1", false⟩], "A1", false⟩,
          ⟨some 2, none, "A2", false⟩,
          ⟨some 3, some [], "A3", false⟩], "T2", false⟩

theorem mergeLsTasks_fst (digest6 : ResultEntry → String)
    (tls : List (List Task)) :
    (mergeLsTasks digest6 tls).1
      = ((buildBucket tls.flatten).map fun e => (mergeGroup digest6 e.2).1) := by
  simp [mergeLsTasks, List.map_map, Function.comp]

theorem mergeLsTasks_snd (digest6 : ResultEntry → String)
    (tls : List (List Task)) :
    (mergeLsTasks digest6 tls).2 = false := by
  show ((buildBucket tls.flatten).map fun e => mergeGroup digest6 e.2).any
      Prod.snd = false
  rw [List.any_eq_false]
  intro x hx
  obtain ⟨e, he, rfl⟩ := List.mem_map.mp hx
  simp [mergeGroup_flag]

theorem length_collectAnns (g : List Task) :
    (collectAnns g).length = (g.map annLen).sum := by
  simp only [collectAnns, List.length_flatten, List.map_map]
  rfl

/-- Per-key characterization of the merged output: for every occurring key,
the merged list holds exactly the merge of the key-filtered task stream. -/
theorem mergeLsTasks_key_char (digest6 : ResultEntry → String)
    (tls : List (List Task)) (k : String)
    (h : ∃ t ∈ tls.flatten, taskKey t = k) :
    (tls.flatten.filter fun t => taskKey t == k) ≠ [] ∧
      ((mergeLsTasks digest6 tls).1.filter fun m => taskKey m == k)
        = [(mergeGroup digest6 (tls.flatten.filter fun t => taskKey t == k)).1] := by
  have hmem : k ∈ bucketKeys (buildBucket tls.flatten) :=
    (mem_bucketKeys_buildBucket tls.flatten k).mpr h
  have hkeys : ∀ e ∈ buildBucket tls.flatten,
      taskKey (mergeGroup digest6 e.2).1 = e.1 := by
    intro e he
    obtain ⟨hchar, hne⟩ := bucket_entry_char tls.flatten e he
    refine taskKey_mergeGroup digest6 e.2 e.1 hne ?_
    intro t ht
    rw [hchar] at ht
    simpa using (List.mem_filter.mp ht).2
  obtain ⟨g, hgmem, hfil⟩ := filter_merged digest6 (buildBucket tls.flatten)
    (nodup_bucketKeys_buildBucket tls.flatten) hkeys k hmem
  obtain ⟨hchar, hne⟩ := bucket_entry_char tls.flatten (k, g) hgmem
  simp only at hchar
  constructor
  · rw [← hchar]; exact hne
  · rw [mergeLsTasks_fst, ← hchar]
    exact hfil

/-- C1: for every collection of input task lists and every occurring task
key, the merged output contains exactly one task with that key, whose
annotation count is the sum of the annotation counts of all input tasks
sharing the key; a task with an absent `annotations` field contributes zero
annotations (and the merge is a total function, so no error is raised). -/
theorem merged_unique_key_and_count (digest6 : ResultEntry → String)
    (tls : List (List Task)) (k : String)
    (h : ∃ t ∈ tls.flatten, taskKey t = k) :
    ∃ m, ((mergeLsTasks digest6 tls).1.filter fun m' => taskKey m' == k) = [m]
      ∧ (m.annotations.getD []).length
          = ((tls.flatten.filter fun t => taskKey t == k).map annLen).sum := by
  obtain ⟨hne, hfil⟩ := mergeLsTasks_key_char digest6 tls k h
  refine ⟨_, hfil, ?_⟩
  obtain ⟨b0, hb0, hmg⟩ :=
    mergeGroup_char digest6 (tls.flatten.filter fun t => taskKey t == k) hne
  rw [hmg]
  simp only [Option.getD_some]
  rw [reassignFrom_length, length_collectAnns]

/-- Concrete instantiation of C1: two contributors annotate the same image
(1 and 2 annotations); the merged output has one task with 3 annotations. -/
theorem merged_unique_key_and_count_witness :
    (∃ t ∈ [[cTask1], [cTask2]].flatten, taskKey t = "img1.jpg") ∧
    ∃ m, ((mergeLsTasks (fun _ => "aaaaaa") [[cTask1], [cTask2]]).1.filter
            fun m' => taskKey m' == "img1.jpg") = [m]
      ∧ (m.annotations.getD []).length
          = (([[cTask1], [cTask2]].flatten.filter
                fun t => taskKey t == "img1.jpg").map annLen).sum :=
  ⟨by decide, merged_unique_key_and_count (fun _ => "aaaaaa")
    [[cTask1], [cTask2]] "img1.jpg" (by decide)⟩

/-- C2: every merged task's annotation identifiers are the contiguous
sequence `1, …, n`, assigned in collection order (the group's tasks in
group order, each task's annotations in their original order; the payload
equality witnesses the ordering). -/
theorem merged_ids_contiguous (digest6 : ResultEntry → String)
    (tls : List (List Task)) (m : Task)
    (hm : m ∈ (mergeLsTasks digest6 tls).1) :
    ((m.annotations.getD []).map fun a => a.aid)
        = (List.range (m.annotations.getD []).length).map (fun j => some (j + 1))
      ∧ ((m.annotations.getD []).map fun a => a.payload)
          = (collectAnns (tls.flatten.filter
                fun t => taskKey t == taskKey m)).map fun a => a.payload := by
  rw [mergeLsTasks_fst] at hm
  obtain ⟨e, he, rfl⟩ := List.mem_map.mp hm
  obtain ⟨hchar, hne⟩ := bucket_entry_char tls.flatten e he
  have hkey : taskKey (mergeGroup digest6 e.2).1 = e.1 := by
    refine taskKey_mergeGroup digest6 e.2 e.1 hne ?_
    intro t ht
    rw [hchar] at ht
    simpa using (List.mem_filter.mp ht).2
  obtain ⟨b0, hb0, hmg⟩ := mergeGroup_char digest6 e.2 hne
  rw [hkey, ← hchar, hmg]
  simp only [Option.getD_some]
  constructor
  · rw [reassignFrom_aids, reassignFrom_length]
    have hfun : (fun j => some (1 + j)) = fun j : Nat => some (j + 1) :=
      funext fun j => congrArg some (by omega)
    rw [hfun]
  · rw [reassignFrom_payloads]

/-- Concrete instantiation of C2. -/
theorem merged_ids_contiguous_witness :
    cMerged1 ∈ (mergeLsTasks (fun _ => "aaaaaa") [[cTask1], [cTask2]]).1 ∧
    (((cMerged1.annotations.getD []).map fun a => a.aid)
        = (List.range (cMerged1.annotations.getD []).length).map
            (fun j => some (j + 1))
      ∧ ((cMerged1.annotations.getD []).map fun a => a.payload)
          = (collectAnns ([[cTask1], [cTask2]].flatten.filter
                fun t => taskKey t == taskKey cMerged1)).map fun a => a.payload) :=
  ⟨by decide, merged_ids_contiguous (fun _ => "aaaaaa") [[cTask1], [cTask2]]
    cMerged1 (by decide)⟩

/-- C8: for every group of tasks sharing a key, the base task is the one
with the most annotations (ties broken first-seen), the merged task is built
from a deep copy of it (same key fields and payload, fresh object identity),
and no in-place write of the merge ever targets an input object. -/
theorem merged_base_selection (digest6 : ResultEntry → String)
    (tls : List (List Task)) (k : String)
    (h : ∃ t ∈ tls.flatten, taskKey t = k) :
    ∃ m b, ((mergeLsTasks digest6 tls).1.filter fun m' => taskKey m' == k) = [m]
      ∧ firstMaxSpec (tls.flatten.filter fun t => taskKey t == k) = some b
      ∧ m.fileUpload = b.fileUpload ∧ m.data = b.data ∧ m.payload = b.payload
      ∧ m.origin = false
      ∧ (mergeLsTasks digest6 tls).2 = false := by
  obtain ⟨hne, hfil⟩ := mergeLsTasks_key_char digest6 tls k h
  obtain ⟨b0, hb0, hmg⟩ :=
    mergeGroup_char digest6 (tls.flatten.filter fun t => taskKey t == k) hne
  refine ⟨_, b0, hfil, hb0, ?_, ?_, ?_, ?_, mergeLsTasks_snd digest6 tls⟩ <;>
    rw [hmg] <;> simp [deepCopyTask]

/-- Concrete instantiation of C8. -/
theorem merged_base_selection_witness :
    (∃ t ∈ [[cTask1], [cTask2]].flatten, taskKey t = "img1.jpg") ∧
    ∃ m b, ((mergeLsTasks (fun _ => "aaaaaa") [[cTask1], [cTask2]]).1.filter
              fun m' => taskKey m' == "img1.jpg") = [m]
      ∧ firstMaxSpec ([[cTask1], [cTask2]].flatten.filter
            fun t => taskKey t == "img1.jpg") = some b
      ∧ m.fileUpload = b.fileUpload ∧ m.data = b.data ∧ m.payload = b.payload
      ∧ m.origin = false
      ∧ (mergeLsTasks (fun _ => "aaaaaa") [[cTask1], [cTask2]]).2 = false :=
  ⟨by decide, merged_base_selection (fun _ => "aaaaaa") [[cTask1], [cTask2]]
    "img1.jpg" (by decide)⟩

/-- C10: the merge never writes into an input object: the mutation ghost
flag (which records the identity flag of the target of every in-place write
the code performs) is `false` for every input, and every object in the
merged output is a fresh copy (identity flag `false`), so the input task
lists are left structurally unchanged. -/
theorem merge_no_input_mutation (digest6 : ResultEntry → String)
    (tls : List (List Task)) :
    (mergeLsTasks digest6 tls).2 = false ∧
      ∀ m ∈ (mergeLsTasks digest6 tls).1, m.origin = false ∧
        ∀ a ∈ m.annotations.getD [], a.origin = false ∧
          ∀ r ∈ a.result.getD [], r.origin = false := by
  refine ⟨mergeLsTasks_snd digest6 tls, ?_⟩
  intro m hm
  rw [mergeLsTasks_fst] at hm
  obtain ⟨e, he, rfl⟩ := List.mem_map.mp hm
  exact ⟨(mergeGroup_no_origin digest6 e.2).1, (mergeGroup_no_origin digest6 e.2).2⟩

/-! ## Result-identifier synthesis (C4) -/

/-- All result identifiers present in a task list, in traversal order. -/
def collectRids (ts : List Task) : List String :=
  ts.flatMap fun t => (t.annotations.getD []).flatMap fun a =>
    (a.result.getD []).filterMap fun r => r.rid

/-- A result entry lacking an identifier, shared verbatim by two tasks. -/
def cEntry : ResultEntry := ⟨none, "p", true⟩

/-- First task of the C4 counterexample (key `k1`). -/
def cDup1 : Task :=
  ⟨some "k1", none, some [⟨none, some [cEntry], "B", true⟩], "U1", true⟩

/-- Second task of the C4 counterexample (key `k2`), with an identical
annotation content. -/
def cDup2 : Task :=
  ⟨some "k2", none, some [⟨none, some [cEntry], "B", true⟩], "U2", true⟩

/-- C4 counterexample: synthesized result identifiers are NOT pairwise
distinct across a run.  Two tasks with different keys each carry one
identical result entry lacking an identifier; both merged tasks restart
annotation numbering at 1, and the entries' serialized forms are identical,
so both synthesized identifiers are `res_1_<same digest>` — whatever value
the 6-hex digest takes, since MD5 is a function of the serialized entry.
The first conjunct shows every input entry lacked an identifier (so every
output identifier was synthesized in this run). -/
theorem synthRid_not_unique_per_run :
    collectRids [cDup1, cDup2] = [] ∧
    ¬ (collectRids (mergeLsTasks (fun _ => "0f3a2b") [[cDup1, cDup2]]).1).Nodup := by
  decide

/-- C4 (amended): a synthesized identifier embeds the annotation's new
identifier between the marker `res_` and the 6-character digest, so entries
whose annotations received distinct new identifiers always get distinct
synthesized identifiers; uniqueness beyond that (equal annotation numbers in
different merged tasks, or digest collisions within one annotation) is not
guaranteed. -/
theorem synthRid_inj_across_ids (digest6 : ResultEntry → String)
    (h6 : ∀ r, (digest6 r).length = 6) (i1 i2 : Nat) (r1 r2 : ResultEntry)
    (hne : i1 ≠ i2) : synthRid digest6 i1 r1 ≠ synthRid digest6 i2 r2 := by
  intro h
  unfold synthRid at h
  have hdata := congrArg String.data h
  simp only [String.data_append, List.append_assoc] at hdata
  have hdata' := List.append_cancel_left hdata
  have hlen : ("_".data ++ (digest6 r1).data).length
      = ("_".data ++ (digest6 r2).data).length := by
    have l1 : (digest6 r1).data.length = 6 := h6 r1
    have l2 : (digest6 r2).data.length = 6 := h6 r2
    simp [l1, l2]
  have := (List.append_inj' hdata' hlen).1
  exact hne (natRepr_inj (String.ext this))

/-- Concrete instantiation of the amended C4. -/
theorem synthRid_inj_across_ids_witness :
    (∀ r : ResultEntry, ((fun _ : ResultEntry => "abcdef") r).length = 6) ∧
      (1 : Nat) ≠ 2 ∧
      synthRid (fun _ => "abcdef") 1 cEntry ≠ synthRid (fun _ => "abcdef") 2 cEntry :=
  ⟨fun _ => rfl, by decide,
    synthRid_inj_across_ids (fun _ => "abcdef") (fun _ => rfl) 1 2 cEntry cEntry
      (by decide)⟩

/-- Concrete instantiation of C10. -/
theorem merge_no_input_mutation_witness :
    (mergeLsTasks (fun _ => "aaaaaa") [[cTask1], [cTask2]]).2 = false ∧
      ∀ m ∈ (mergeLsTasks (fun _ => "aaaaaa") [[cTask1], [cTask2]]).1,
        m.origin = false ∧
        ∀ a ∈ m.annotations.getD [], a.origin = false ∧
          ∀ r ∈ a.result.getD [], r.origin = false :=
  merge_no_input_mutation (fun _ => "aaaaaa") [[cTask1], [cTask2]]

/-! ## The archive flattener (`extract_and_flatten_zips`, MemberMerger.py:95-133) -/

/-- `IMAGE_EXTENSIONS` (MemberMerger.py:34). -/
def imageExtensions : List String :=
  [".jpg", ".jpeg", ".png", ".bmp", ".tif", ".tiff", ".webp"]

/-- A filesystem entry found under the extraction area: Python's `p.stem`
(filename without the last extension), `p.suffix` (the last extension, dot
included), the file's bytes, and whether it is a regular file. -/
structure FFile where
  stem : String
  suffix : String
  content : List Nat
  isFile : Bool
deriving DecidableEq

/-- `p.name`. -/
def FFile.fname (f : FFile) : String := f.stem ++ f.suffix

/-- Substring test (Python's `"DS_Store" in p.name`). -/
def strContains (hay pat : String) : Bool :=
  decide (List.IsInfix pat.data hay.data)

/-- Character-level ASCII lowercasing (the extensions compared against are
all ASCII, so this matches Python's `str.lower()` on them). -/
def charLower (c : Char) : Char :=
  if 65 ≤ c.toNat ∧ c.toNat ≤ 90 then Char.ofNat (c.toNat + 32) else c

/-- `s.lower()`. -/
def strLower (s : String) : String := String.mk (s.data.map charLower)

/-- `hay.startswith(pat)`, character by character. -/
def charsBegin : List Char → List Char → Bool
  | _, [] => true
  | [], _ :: _ => false
  | c :: cs, d :: ds => c == d && charsBegin cs ds

/-- `s.startswith(pat)`. -/
def strBegins (s pat : String) : Bool := charsBegin s.data pat.data

/-- `s[:n]`. -/
def strTake (s : String) (n : Nat) : String := String.mk (s.data.take n)

/-- The three skip checks of the loop (MemberMerger.py:111-116): regular
file, not an OS-metadata artifact (`._*`, `*DS_Store*`), recognized image
extension. -/
def isCandidate (f : FFile) : Bool :=
  f.isFile && !(strBegins f.fname "._") && !(strContains f.fname "DS_Store")
    && imageExtensions.contains (strLower f.suffix)

/-- `shutil.copy2(p, dst)` into the output directory, modelled as an
association list from filename to bytes: overwrite an existing entry
(returning `true`: an existing output file was silently replaced) or append
a new one. -/
def dirWrite (name : String) (c : List Nat) :
    List (String × List Nat) → List (String × List Nat) × Bool
  | [] => ([(name, c)], false)
  | (n', c') :: rest =>
      if n' = name then ((n', c) :: rest, true)
      else
        let p := dirWrite name c rest
        ((n', c') :: p.1, p.2)

/-- `dst.exists()`. -/
def dirHasKey (out : List (String × List Nat)) (name : String) : Bool :=
  out.any fun e => e.1 == name

/-- Content stored under a filename. -/
def dirLookup (out : List (String × List Nat)) (name : String) :
    Option (List Nat) :=
  (out.find? fun e => e.1 == name).map Prod.snd

/-- Number of output files holding exactly the bytes `c`. -/
def countContent (c : List Nat) (out : List (String × List Nat)) : Nat :=
  (out.filter fun e => e.2 == c).length

/-- State of the flatten loop: `seen_hash` keys, output directory, the two
counters, and a ghost flag set when a copy silently overwrote an existing
output file (a disambiguation-rename collision, which the code does not
check for). -/
structure FlatState where
  seen : List String
  out : List (String × List Nat)
  written : Nat
  skipped : Nat
  clobbered : Bool
deriving DecidableEq

/-- The state after `dest_dir` is cleared and recreated. -/
def initFlat : FlatState := ⟨[], [], 0, 0, false⟩

/-- One iteration of the `for p in tmp_root.rglob("*")` loop, parametrized
by the content digest `sha1` (`sha1_of_file`). -/
def flatStep (sha1 : List Nat → String) (st : FlatState) (f : FFile) :
    FlatState :=
  if isCandidate f then
    let h := sha1 f.content
    if h ∈ st.seen then { st with skipped := st.skipped + 1 }
    else
      let dst := if dirHasKey st.out f.fname
                 then f.stem ++ "_" ++ strTake h 8 ++ f.suffix
                 else f.fname
      let p := dirWrite dst f.content st.out
      { seen := h :: st.seen, out := p.1, written := st.written + 1,
        skipped := st.skipped, clobbered := st.clobbered || p.2 }
  else st

/-- The flatten loop over the examined files. -/
def flattenFiles (sha1 : List Nat → String) (files : List FFile) : FlatState :=
  files.foldl (flatStep sha1) initFlat

/-- A contributor archive: either malformed (raises on open/extract) or a
list of member files. -/
inductive ZipArchive where
  | malformed : ZipArchive
  | wellFormed : List FFile → ZipArchive
deriving DecidableEq

/-- The `zf.extractall` loop over all archives: the first malformed archive
raises; otherwise all member files land in the extraction area.  (OS-level
path collisions between archives are abstracted away here; the claims about
examined candidate files take the examined file list as input.) -/
def extractAllZips : List ZipArchive → Except Unit (List FFile)
  | [] => .ok []
  | .malformed :: _ => .error ()
  | .wellFormed fs :: rest =>
      match extractAllZips rest with
      | .error e => .error e
      | .ok acc => .ok (fs ++ acc)

/-- Result of `extract_and_flatten_zips`: the returned counters (or the
propagated error), whether the temporary extraction area was removed before
returning, and the final output-directory state. -/
structure FlattenResult where
  result : Except Unit (Nat × Nat)
  tmpRemoved : Bool
  state : FlatState

/-- `extract_and_flatten_zips(zip_paths, dest_dir)`: clear the destination,
extract every archive (a malformed archive aborts the whole operation),
flatten, and — encoding the `try/finally` — remove the temporary extraction
area on BOTH exit paths before returning. -/
def extractAndFlattenZips (sha1 : List Nat → String)
    (zips : List ZipArchive) : FlattenResult :=
  match extractAllZips zips with
  | .error _ => { result := .error (), tmpRemoved := true, state := initFlat }
  | .ok files =>
      let st := flattenFiles sha1 files
      { result := .ok (st.written, st.skipped), tmpRemoved := true, state := st }

/-- Byte contents of the candidate files, in examination order. -/
def candContents (fs : List FFile) : List (List Nat) :=
  (fs.filter isCandidate).map FFile.content

/-! ## Flattener lemmas -/

theorem flatStep_counters (sha1 : List Nat → String) (st : FlatState)
    (f : FFile) :
    (flatStep sha1 st f).written + (flatStep sha1 st f).skipped
      = st.written + st.skipped + (if isCandidate f then 1 else 0) := by
  cases hc : isCandidate f
  · simp [flatStep, hc]
  · by_cases hs : sha1 f.content ∈ st.seen
    · simp [flatStep, hc, hs]; omega
    · simp [flatStep, hc, hs]; omega

theorem foldl_counters (sha1 : List Nat → String) :
    ∀ (fs : List FFile) (st : FlatState),
      (fs.foldl (flatStep sha1) st).written
          + (fs.foldl (flatStep sha1) st).skipped
        = st.written + st.skipped + (fs.filter isCandidate).length := by
  intro fs
  induction fs with
  | nil => intro st; simp
  | cons f fs ih =>
      intro st
      simp only [List.foldl_cons, List.filter_cons]
      rw [ih]
      have hstep := flatStep_counters sha1 st f
      cases hc : isCandidate f <;> simp [hc] at hstep ⊢ <;> omega

theorem flatStep_clobber_mono (sha1 : List Nat → String) (st : FlatState)
    (f : FFile) (h : st.clobbered = true) :
    (flatStep sha1 st f).clobbered = true := by
  cases hc : isCandidate f
  · simp [flatStep, hc, h]
  · by_cases hs : sha1 f.content ∈ st.seen
    · simp [flatStep, hc, hs, h]
    · simp [flatStep, hc, hs, h]

theorem foldl_clobber_mono (sha1 : List Nat → String) :
    ∀ (fs : List FFile) (st : FlatState), st.clobbered = true →
      (fs.foldl (flatStep sha1) st).clobbered = true := by
  intro fs
  induction fs with
  | nil => intro st h; simpa using h
  | cons f fs ih =>
      intro st h
      simp only [List.foldl_cons]
      exact ih _ (flatStep_clobber_mono sha1 st f h)

theorem clobber_of_foldl_false (sha1 : List Nat → String) (fs : List FFile)
    (st : FlatState) (h : (fs.foldl (flatStep sha1) st).clobbered = false) :
    st.clobbered = false := by
  cases hc : st.clobbered
  · rfl
  · rw [foldl_clobber_mono sha1 fs st hc] at h
    exact absurd h (by simp)

theorem dirWrite_snd (name : String) (c : List Nat) :
    ∀ out, (dirWrite name c out).2 = dirHasKey out name := by
  intro out
  induction out with
  | nil => simp [dirWrite, dirHasKey]
  | cons e rest ih =>
      obtain ⟨n', c'⟩ := e
      by_cases h : n' = name
      · simp [dirWrite, dirHasKey, h]
      · simp only [dirWrite, if_neg h, dirHasKey, List.any_cons]
        simp only [dirHasKey] at ih
        simp [ih, h]

theorem dirWrite_append (name : String) (c : List Nat) :
    ∀ out, dirHasKey out name = false →
      (dirWrite name c out).1 = out ++ [(name, c)] := by
  intro out
  induction out with
  | nil => intro _; simp [dirWrite]
  | cons e rest ih =>
      obtain ⟨n', c'⟩ := e
      intro h
      have hne : n' ≠ name := by
        intro hc
        simp [dirHasKey, hc] at h
      have hrest : dirHasKey rest name = false := by
        simpa [dirHasKey, hne] using h
      simp [dirWrite, hne, ih hrest]

theorem countContent_append (c : List Nat) (out : List (String × List Nat))
    (n : String) (c0 : List Nat) :
    countContent c (out ++ [(n, c0)])
      = countContent c out + (if c0 = c then 1 else 0) := by
  simp only [countContent, List.filter_append]
  by_cases h : c0 = c <;> simp [h]

theorem countContent_dirWrite_other (c c0 : List Nat) (n : String)
    (h : c0 ≠ c) :
    ∀ out, countContent c (dirWrite n c0 out).1 ≤ countContent c out := by
  intro out
  induction out with
  | nil => simp [dirWrite, countContent, h]
  | cons e rest ih =>
      obtain ⟨n', c'⟩ := e
      by_cases hn : n' = n
      · simp only [dirWrite, if_pos hn, countContent, List.filter_cons]
        by_cases hc' : c' = c <;> by_cases hc0 : c0 = c <;>
          simp_all [countContent] <;> omega
      · simp only [dirWrite, if_neg hn, countContent, List.filter_cons]
        by_cases hc' : c' = c <;> simp_all [countContent]

theorem dirLookup_append_other (n dst : String) (c : List Nat) (h : n ≠ dst) :
    ∀ out, dirLookup (out ++ [(dst, c)]) n = dirLookup out n := by
  intro out
  induction out with
  | nil => simp [dirLookup, Ne.symm h]
  | cons e rest ih =>
      obtain ⟨n', c'⟩ := e
      by_cases hn : n' = n <;> simp [dirLookup, hn] <;>
        simpa [dirLookup] using ih

theorem dirLookup_append_self (dst : String) (c : List Nat) :
    ∀ out, dirHasKey out dst = false →
      dirLookup (out ++ [(dst, c)]) dst = some c := by
  intro out
  induction out with
  | nil => intro _; simp [dirLookup]
  | cons e rest ih =>
      obtain ⟨n', c'⟩ := e
      intro h
      have hne : n' ≠ dst := by
        intro hc
        simp [dirHasKey, hc] at h
      have hrest : dirHasKey rest dst = false := by
        simpa [dirHasKey, hne] using h
      simp [dirLookup, hne] at ih ⊢
      exact ih hrest

theorem dirHasKey_of_lookup (out : List (String × List Nat)) (n : String)
    (v : List Nat) (h : dirLookup out n = some v) : dirHasKey out n = true := by
  unfold dirLookup at h
  cases hf : out.find? fun e => e.1 == n with
  | none => rw [hf] at h; simp at h
  | some e =>
      have hmem := List.mem_of_find?_eq_some hf
      have hpred := List.find?_some hf
      simp only [beq_iff_eq] at hpred
      unfold dirHasKey
      rw [List.any_eq_true]
      exact ⟨e, hmem, by simp [hpred]⟩

theorem flatStep_preserves_lookup (sha1 : List Nat → String) (st : FlatState)
    (f : FFile) (n : String) (v : List Nat)
    (hlk : dirLookup st.out n = some v)
    (hcl : (flatStep sha1 st f).clobbered = false) :
    dirLookup (flatStep sha1 st f).out n = some v := by
  cases hc : isCandidate f
  · simpa [flatStep, hc] using hlk
  · by_cases hs : sha1 f.content ∈ st.seen
    · simpa [flatStep, hc, hs] using hlk
    · simp only [flatStep, hc, hs, if_pos, if_neg, if_true, if_false] at hcl ⊢
      set dst := if dirHasKey st.out f.fname = true
          then f.stem ++ "_" ++ strTake (sha1 f.content) 8 ++ f.suffix
          else f.fname with hdst
      simp only [Bool.or_eq_false_iff] at hcl
      have hw2 : dirHasKey st.out dst = false := by
        rw [← dirWrite_snd dst f.content st.out]
        exact hcl.2
      have hne : n ≠ dst := by
        intro hc'
        have hk := dirHasKey_of_lookup st.out dst v (hc' ▸ hlk)
        rw [hk] at hw2
        exact absurd hw2 (by simp)
      rw [dirWrite_append dst f.content st.out hw2,
        dirLookup_append_other n dst f.content hne]
      exact hlk

theorem foldl_preserves_lookup (sha1 : List Nat → String) :
    ∀ (fs : List FFile) (st : FlatState) (n : String) (v : List Nat),
      dirLookup st.out n = some v →
      (fs.foldl (flatStep sha1) st).clobbered = false →
      dirLookup (fs.foldl (flatStep sha1) st).out n = some v := by
  intro fs
  induction fs with
  | nil => intro st n v h _; simpa using h
  | cons f fs ih =>
      intro st n v h hcl
      simp only [List.foldl_cons] at hcl ⊢
      have hstep : (flatStep sha1 st f).clobbered = false :=
        clobber_of_foldl_false sha1 fs _ hcl
      exact ih _ n v (flatStep_preserves_lookup sha1 st f n v h hstep) hcl

/-- The dedup invariant: starting from a state whose seen-set is precisely
the digests of the already-retained contents `C` (one retained copy each,
and nothing retained outside of `C`), a clobber-free run over `fs` with a
digest injective on all involved contents retains exactly one copy of every
content. -/
theorem flatten_inv (sha1 : List Nat → String) :
    ∀ (fs : List FFile) (st : FlatState) (C : List (List Nat)),
      (∀ h', h' ∈ st.seen ↔ ∃ c ∈ C, sha1 c = h') →
      (∀ c, sha1 c ∉ st.seen → countContent c st.out = 0) →
      (∀ c ∈ C, countContent c st.out = 1) →
      (∀ c1 ∈ C ++ candContents fs, ∀ c2 ∈ C ++ candContents fs,
          sha1 c1 = sha1 c2 → c1 = c2) →
      (fs.foldl (flatStep sha1) st).clobbered = false →
      ∀ c ∈ C ++ candContents fs,
        countContent c (fs.foldl (flatStep sha1) st).out = 1 := by
  intro fs
  induction fs with
  | nil =>
      intro st C h1 h2 h3 _ _
      simpa [candContents] using h3
  | cons f fs ih =>
      intro st C h1 h2 h3 hinj hclob
      simp only [List.foldl_cons] at hclob ⊢
      cases hc : isCandidate f with
      | false =>
          have hstep : flatStep sha1 st f = st := by simp [flatStep, hc]
          rw [hstep] at hclob ⊢
          have hcand : candContents (f :: fs) = candContents fs := by
            simp [candContents, List.filter_cons, hc]
          rw [hcand] at hinj ⊢
          exact ih st C h1 h2 h3 hinj hclob
      | true =>
          have hcand : candContents (f :: fs) = f.content :: candContents fs := by
            simp [candContents, List.filter_cons, hc]
          have hmemiff : ∀ x : List Nat,
              x ∈ (C ++ [f.content]) ++ candContents fs
                ↔ x ∈ C ++ candContents (f :: fs) := by
            intro x
            simp only [hcand, List.mem_append, List.mem_cons,
              List.mem_singleton, List.not_mem_nil, or_false]
            tauto
          have hinj' : ∀ c1 ∈ (C ++ [f.content]) ++ candContents fs,
              ∀ c2 ∈ (C ++ [f.content]) ++ candContents fs,
                sha1 c1 = sha1 c2 → c1 = c2 := fun c1 hc1 c2 hc2 =>
            hinj c1 ((hmemiff c1).mp hc1) c2 ((hmemiff c2).mp hc2)
          have hfc_mem : f.content ∈ C ++ candContents (f :: fs) := by
            simp [hcand]
          by_cases hs : sha1 f.content ∈ st.seen
          · have hstep : flatStep sha1 st f
                = { st with skipped := st.skipped + 1 } := by
              simp [flatStep, hc, hs]
            rw [hstep] at hclob ⊢
            obtain ⟨c', hcC, hch⟩ := (h1 (sha1 f.content)).mp hs
            have hceq : c' = f.content :=
              hinj c' (by simp [hcC]) f.content hfc_mem hch
            have h1' : ∀ h', h' ∈ st.seen
                ↔ ∃ c ∈ C ++ [f.content], sha1 c = h' := by
              intro h'
              rw [h1 h']
              constructor
              · rintro ⟨c, hcc, hh⟩
                exact ⟨c, by simp [hcc], hh⟩
              · rintro ⟨c, hcc, hh⟩
                rcases List.mem_append.mp hcc with hcc' | hcc'
                · exact ⟨c, hcc', hh⟩
                · have : c = f.content := by simpa using hcc'
                  subst this
                  exact ⟨c', hcC, hch.trans hh⟩
            have h3' : ∀ c ∈ C ++ [f.content],
                countContent c st.out = 1 := by
              intro c hcc
              rcases List.mem_append.mp hcc with hcc' | hcc'
              · exact h3 c hcc'
              · have : c = f.content := by simpa using hcc'
                subst this
                rw [← hceq]
                exact h3 c' hcC
            have hones := ih { st with skipped := st.skipped + 1 }
              (C ++ [f.content]) h1' h2 h3' hinj' hclob
            intro c hcc
            exact hones c ((hmemiff c).mpr hcc)
          · have hstclob : (flatStep sha1 st f).clobbered = false :=
              clobber_of_foldl_false sha1 fs _ hclob
            simp only [flatStep, hc, hs, if_pos, if_neg, if_true, if_false,
              not_false_iff] at hstclob
            set dst := if dirHasKey st.out f.fname = true
                then f.stem ++ "_" ++ strTake (sha1 f.content) 8 ++ f.suffix
                else f.fname with hdst
            simp only [Bool.or_eq_false_iff] at hstclob
            have hw2 : (dirWrite dst f.content st.out).2 = false := hstclob.2
            have hkey : dirHasKey st.out dst = false := by
              rw [← dirWrite_snd dst f.content st.out]
              exact hw2
            have hstep : flatStep sha1 st f
                = ⟨sha1 f.content :: st.seen, st.out ++ [(dst, f.content)],
                   st.written + 1, st.skipped, st.clobbered⟩ := by
              simp only [flatStep, hc, hs, if_pos, if_neg, if_true, if_false,
                not_false_iff]
              rw [dirWrite_append dst f.content st.out hkey, hw2]
              simp
            rw [hstep] at hclob ⊢
            have h1' : ∀ h', h' ∈ sha1 f.content :: st.seen
                ↔ ∃ c ∈ C ++ [f.content], sha1 c = h' := by
              intro h'
              constructor
              · intro hm
                rcases List.mem_cons.mp hm with rfl | hm'
                · exact ⟨f.content, by simp, rfl⟩
                · obtain ⟨c, hcc, hh⟩ := (h1 h').mp hm'
                  exact ⟨c, by simp [hcc], hh⟩
              · rintro ⟨c, hcc, hh⟩
                rcases List.mem_append.mp hcc with hcc' | hcc'
                · exact List.mem_cons_of_mem _ ((h1 h').mpr ⟨c, hcc', hh⟩)
                · have : c = f.content := by simpa using hcc'
                  subst this
                  rw [← hh]
                  exact List.mem_cons_self _ _
            have h2' : ∀ c, sha1 c ∉ sha1 f.content :: st.seen →
                countContent c (st.out ++ [(dst, f.content)]) = 0 := by
              intro c hcn
              have hsplit : sha1 c ≠ sha1 f.content ∧ sha1 c ∉ st.seen := by
                constructor
                · intro hcc
                  exact hcn (by rw [hcc]; exact List.mem_cons_self _ _)
                · intro hcc
                  exact hcn (List.mem_cons_of_mem _ hcc)
              have hne : f.content ≠ c := by
                intro hcc
                exact hsplit.1 (by rw [hcc])
              rw [countContent_append, if_neg hne, h2 c hsplit.2]
            have h3' : ∀ c ∈ C ++ [f.content],
                countContent c (st.out ++ [(dst, f.content)]) = 1 := by
              intro c hcc
              rcases List.mem_append.mp hcc with hcc' | hcc'
              · have hcs : sha1 c ∈ st.seen := (h1 (sha1 c)).mpr ⟨c, hcc', rfl⟩
                have hne : f.content ≠ c := by
                  intro hcc''
                  rw [hcc''] at hs
                  exact hs hcs
                rw [countContent_append, if_neg hne, h3 c hcc']
              · have : c = f.content := by simpa using hcc'
                subst this
                rw [countContent_append, if_pos rfl, h2 f.content hs]
            have hones := ih _ (C ++ [f.content]) h1' h2' h3' hinj' hclob
            intro c hcc
            exact hones c ((hmemiff c).mpr hcc)

theorem clobber_of_flatStep_false (sha1 : List Nat → String) (st : FlatState)
    (f : FFile) (h : (flatStep sha1 st f).clobbered = false) :
    st.clobbered = false := by
  cases hb : st.clobbered
  · rfl
  · rw [flatStep_clobber_mono sha1 st f hb] at h
    exact absurd h (by simp)

/-! ## Claims about the flattener (C5, C6, C9) -/

/-- The true SHA-1 digests of the byte strings `b"\x01"`, `b"\x02"`,
`b"\x03"` used by the counterexamples (checkable with any SHA-1 tool), so
the refutations re-trace on the real code. -/
def sha1C : List Nat → String := fun c =>
  if c = [1] then "bf8b4530d8d246dd74ac53a13471bba17941dff7"
  else if c = [2] then "c4ea21bb365bbeeaf5f2c654883e56d11e43c44e"
  else if c = [3] then "9842926af7ca0a8cca12604f945414f07b01e13d"
  else ""

/-- C5 counterexample input: the first file's name is exactly the
disambiguation rename target of the third file (`"a_"` + the first 8 hex
characters of `sha1(b"\x01")` + `".png"`). -/
def cClobberFiles : List FFile :=
  [⟨"a_bf8b4530", ".png", [3], true⟩, ⟨"a", ".png", [2], true⟩,
   ⟨"a", ".png", [1], true⟩]

/-- C5 counterexample: dedup does NOT guarantee exactly one retained copy
per candidate content.  The third file's rename target collides with the
first file's name, and `shutil.copy2` silently overwrites it: content `[3]`
is a candidate content but ends with zero retained copies (the ghost
`clobbered` flag records the overwrite).  The counters still sum to the
candidate count (3 written + 0 skipped). -/
theorem flatten_lost_copy_cex :
    [3] ∈ candContents cClobberFiles ∧
    countContent [3] (flattenFiles sha1C cClobberFiles).out = 0 ∧
    (flattenFiles sha1C cClobberFiles).written = 3 ∧
    (flattenFiles sha1C cClobberFiles).skipped = 0 ∧
    (flattenFiles sha1C cClobberFiles).clobbered = true := by
  decide

/-- C5 (amended): for EVERY run, the written/skipped counters sum to the
number of candidate files examined (first conjunct, unconditional); and
provided the digest is injective on the run's candidate contents and no
disambiguation rename silently overwrote an existing output file
(clobber-free run), every candidate byte content has exactly one retained
copy, regardless of filenames or source archives (second conjunct, under
those two hypotheses only). -/
theorem flatten_dedup_amended (sha1 : List Nat → String) (files : List FFile) :
    ((flattenFiles sha1 files).written + (flattenFiles sha1 files).skipped
        = (files.filter isCandidate).length) ∧
    ((∀ c1 ∈ candContents files, ∀ c2 ∈ candContents files,
          sha1 c1 = sha1 c2 → c1 = c2) →
      (flattenFiles sha1 files).clobbered = false →
      ∀ c ∈ candContents files,
        countContent c (flattenFiles sha1 files).out = 1) := by
  constructor
  · have := foldl_counters sha1 files initFlat
    simpa [flattenFiles, initFlat] using this
  · intro hinj hclob
    have hmain := flatten_inv sha1 files initFlat []
      (by intro h'; simp [initFlat])
      (fun c _ => rfl)
      (fun c hc => absurd hc (List.not_mem_nil c))
      hinj hclob
    intro c hc
    exact hmain c (by simpa using hc)

/-- C5 witness input: two byte-identical images under different names. -/
def cDedupFiles : List FFile :=
  [⟨"cat", ".png", [1], true⟩, ⟨"dog", ".png", [1], true⟩]

/-- Concrete instantiation of the amended C5 (written 1, skipped 1), with
the two hypotheses of the dedup conjunct discharged. -/
theorem flatten_dedup_amended_witness :
    ((flattenFiles sha1C cDedupFiles).written
          + (flattenFiles sha1C cDedupFiles).skipped
        = (cDedupFiles.filter isCandidate).length) ∧
    (∀ c1 ∈ candContents cDedupFiles, ∀ c2 ∈ candContents cDedupFiles,
        sha1C c1 = sha1C c2 → c1 = c2) ∧
    (flattenFiles sha1C cDedupFiles).clobbered = false ∧
    (∀ c ∈ candContents cDedupFiles,
        countContent c (flattenFiles sha1C cDedupFiles).out = 1) :=
  ⟨(flatten_dedup_amended sha1C cDedupFiles).1, by decide, by decide,
    (flatten_dedup_amended sha1C cDedupFiles).2 (by decide) (by decide)⟩

/-- C6 counterexample input: three candidate files sharing one filename,
with pairwise distinct contents. -/
def cTripleFiles : List FFile :=
  [⟨"a", ".png", [1], true⟩, ⟨"a", ".png", [2], true⟩,
   ⟨"a", ".png", [3], true⟩]

/-- C6 counterexample: for the pair formed by the SECOND and THIRD files
(identical filename `a.png`, distinct contents `[2]` and `[3]`), the first
member of the pair does NOT keep the original filename: `a.png` holds the
FIRST file's content `[1]`, and the second file was retained only under its
digest-renamed name.  So "the first of every such pair keeps the original
name" fails whenever more than two candidates share a filename. -/
theorem flatten_rename_cex :
    isCandidate ⟨"a", ".png", [2], true⟩ = true ∧
    isCandidate ⟨"a", ".png", [3], true⟩ = true ∧
    dirLookup (flattenFiles sha1C cTripleFiles).out "a.png" = some [1] ∧
    dirLookup (flattenFiles sha1C cTripleFiles).out "a_c4ea21bb.png" = some [2] ∧
    ¬ dirLookup (flattenFiles sha1C cTripleFiles).out "a.png" = some [2] := by
  decide

/-- C6 (amended): when a candidate `f1` arrives while its filename is still
unclaimed and its digest unseen, and a later candidate `f2` with the same
filename but different content arrives with its digest still unseen, then in
a clobber-free run the output retains `f1`'s bytes under the original
filename and `f2`'s bytes under the digest-renamed filename, two distinct
names. -/
theorem flatten_collision_amended (sha1 : List Nat → String)
    (pre mid post : List FFile) (f1 f2 : FFile)
    (hc1 : isCandidate f1 = true) (hc2 : isCandidate f2 = true)
    (hname : f1.fname = f2.fname) (hcont : f1.content ≠ f2.content)
    (hkey : dirHasKey (pre.foldl (flatStep sha1) initFlat).out f1.fname = false)
    (hh1 : sha1 f1.content ∉ (pre.foldl (flatStep sha1) initFlat).seen)
    (hh2 : sha1 f2.content ∉ (mid.foldl (flatStep sha1)
        (flatStep sha1 (pre.foldl (flatStep sha1) initFlat) f1)).seen)
    (hclob : (flattenFiles sha1 (pre ++ f1 :: mid ++ f2 :: post)).clobbered
        = false) :
    dirLookup (flattenFiles sha1 (pre ++ f1 :: mid ++ f2 :: post)).out f1.fname
        = some f1.content ∧
    dirLookup (flattenFiles sha1 (pre ++ f1 :: mid ++ f2 :: post)).out
        (f2.stem ++ "_" ++ strTake (sha1 f2.content) 8 ++ f2.suffix)
        = some f2.content ∧
    f1.fname ≠ f2.stem ++ "_" ++ strTake (sha1 f2.content) 8 ++ f2.suffix := by
  set st0 := pre.foldl (flatStep sha1) initFlat with hst0
  set st1 := flatStep sha1 st0 f1 with hst1
  set st2 := mid.foldl (flatStep sha1) st1 with hst2
  set st3 := flatStep sha1 st2 f2 with hst3
  set rname := f2.stem ++ "_" ++ strTake (sha1 f2.content) 8 ++ f2.suffix
    with hrname
  have hrun : flattenFiles sha1 (pre ++ f1 :: mid ++ f2 :: post)
      = post.foldl (flatStep sha1) st3 := by
    simp only [flattenFiles, List.foldl_append, List.foldl_cons, hst0, hst1,
      hst2, hst3]
  rw [hrun] at hclob
  have hcl3 : st3.clobbered = false := clobber_of_foldl_false sha1 post st3 hclob
  have hcl2 : st2.clobbered = false := clobber_of_flatStep_false sha1 st2 f2 hcl3
  have hd1 : dirLookup st1.out f1.fname = some f1.content := by
    rw [hst1]
    simp only [flatStep, hc1, hh1, if_pos, if_neg, if_true, if_false,
      not_false_iff]
    rw [if_neg (by simp [hkey]), dirWrite_append _ _ _ hkey]
    exact dirLookup_append_self f1.fname f1.content st0.out hkey
  have hd1' : dirLookup st2.out f1.fname = some f1.content := by
    rw [hst2]
    exact foldl_preserves_lookup sha1 mid st1 _ _ hd1 (by rw [← hst2]; exact hcl2)
  have hhk2 : dirHasKey st2.out f2.fname = true := by
    rw [← hname]
    exact dirHasKey_of_lookup _ _ _ hd1'
  have hcl3u : (st2.clobbered || (dirWrite rname f2.content st2.out).2)
      = false := by
    have h3 := hcl3
    rw [hst3] at h3
    simp only [flatStep, hc2, hh2, if_pos, if_neg, if_true, if_false,
      not_false_iff] at h3
    rw [if_pos hhk2] at h3
    exact h3
  have hw2 : (dirWrite rname f2.content st2.out).2 = false := by
    rcases Bool.or_eq_false_iff.mp hcl3u with ⟨_, h⟩
    exact h
  have hrkey : dirHasKey st2.out rname = false := by
    rw [← dirWrite_snd rname f2.content st2.out]
    exact hw2
  have hd2 : dirLookup st3.out rname = some f2.content := by
    rw [hst3]
    simp only [flatStep, hc2, hh2, if_pos, if_neg, if_true, if_false,
      not_false_iff]
    rw [if_pos hhk2, dirWrite_append _ _ _ hrkey]
    exact dirLookup_append_self rname f2.content st2.out hrkey
  have hd1'' : dirLookup st3.out f1.fname = some f1.content := by
    rw [hst3]
    exact flatStep_preserves_lookup sha1 st2 f2 _ _ hd1'
      (by rw [← hst3]; exact hcl3)
  have final1 := foldl_preserves_lookup sha1 post st3 _ _ hd1'' hclob
  have final2 := foldl_preserves_lookup sha1 post st3 _ _ hd2 hclob
  have hne : f1.fname ≠ rname := by
    intro hce
    have hlen := congrArg String.length hce
    have hu : ("_" : String).length = 1 := rfl
    rw [hname] at hlen
    simp only [FFile.fname, hrname, String.length_append, hu] at hlen
    omega
  exact ⟨hrun ▸ final1, hrun ▸ final2, hne⟩

/-- Concrete instantiation of the amended C6: two same-named distinct
images; the first keeps `a.png`, the second lands under its digest-suffixed
name. -/
theorem flatten_collision_amended_witness :
    (isCandidate ⟨"a", ".png", [1], true⟩ = true ∧
     isCandidate ⟨"a", ".png", [2], true⟩ = true ∧
     (FFile.fname ⟨"a", ".png", [1], true⟩)
        = (FFile.fname ⟨"a", ".png", [2], true⟩) ∧
     ([1] : List Nat) ≠ [2] ∧
     (flattenFiles sha1C [⟨"a", ".png", [1], true⟩, ⟨"a", ".png", [2], true⟩]).clobbered
        = false) ∧
    dirLookup (flattenFiles sha1C
        [⟨"a", ".png", [1], true⟩, ⟨"a", ".png", [2], true⟩]).out
        (FFile.fname ⟨"a", ".png", [1], true⟩) = some [1] ∧
    dirLookup (flattenFiles sha1C
        [⟨"a", ".png", [1], true⟩, ⟨"a", ".png", [2], true⟩]).out
        ("a" ++ "_" ++ strTake (sha1C [2]) 8 ++ ".png") = some [2] ∧
    (FFile.fname ⟨"a", ".png", [1], true⟩)
        ≠ "a" ++ "_" ++ strTake (sha1C [2]) 8 ++ ".png" :=
  ⟨⟨by decide, by decide, by decide, by decide, by decide⟩,
    flatten_collision_amended sha1C [] [] []
      ⟨"a", ".png", [1], true⟩ ⟨"a", ".png", [2], true⟩
      (by decide) (by decide) (by decide) (by decide) (by decide) (by decide)
      (by decide) (by decide)⟩

theorem extractAllZips_malformed (zips : List ZipArchive)
    (h : ZipArchive.malformed ∈ zips) : extractAllZips zips = .error () := by
  induction zips with
  | nil => simp at h
  | cons z rest ih =>
      cases z with
      | malformed => rfl
      | wellFormed fs =>
          have hrest : ZipArchive.malformed ∈ rest := by
            rcases List.mem_cons.mp h with h' | h'
            · exact absurd h' (by simp)
            · exact h'
          simp [extractAllZips, ih hrest]

/-- C9: the temporary extraction area is removed before
`extract_and_flatten_zips` returns on BOTH exit paths (the `try/finally` is
embedded as cleanup on both branches), and a malformed archive aborts the
whole flatten operation with the error propagating to the caller. -/
theorem extract_cleanup_and_abort (sha1 : List Nat → String)
    (zips : List ZipArchive) :
    (extractAndFlattenZips sha1 zips).tmpRemoved = true ∧
    (ZipArchive.malformed ∈ zips →
      (extractAndFlattenZips sha1 zips).result = .error ()) := by
  constructor
  · cases h : extractAllZips zips <;> simp [extractAndFlattenZips, h]
  · intro hm
    simp [extractAndFlattenZips, extractAllZips_malformed zips hm]

/-- Concrete instantiation of C9 at a malformed archive. -/
theorem extract_cleanup_and_abort_witness :
    (extractAndFlattenZips (fun _ => "") [ZipArchive.malformed]).tmpRemoved
        = true ∧
    (extractAndFlattenZips (fun _ => "") [ZipArchive.malformed]).result
        = .error () :=
  ⟨(extract_cleanup_and_abort (fun _ => "") [ZipArchive.malformed]).1,
   (extract_cleanup_and_abort (fun _ => "") [ZipArchive.malformed]).2
     (by simp)⟩

/-! ## The CLI orchestrator (`main`, MemberMerger.py:145-205) -/

/-- A declared contributor: display name, whether the two declared paths
exist, whether the JSON file parses as a task array, the parsed tasks, and
the archive. -/
structure MemberIn where
  mname : String
  jsonExists : Bool
  zipExists : Bool
  jsonIsArray : Bool
  tasks : List Task
  zip : ZipArchive

/-- Observable filesystem write events of a run, in program order. -/
inductive Event where
  | mkdirE : String → Event
  | copyJson : String → Event
  | copyZip : String → Event
  | writeMergedJson : Event
  | writeMergedZip : Event
deriving DecidableEq

/-- The run-terminating errors of `main`. -/
inductive MainErr where
  | badCount : MainErr
  | fileNotFound : MainErr
  | badTaskArray : MainErr
  | badZip : MainErr
deriving DecidableEq

/-- The summary reported on success. -/
structure MainSummary where
  mergedCount : Nat
  written : Nat
  skipped : Nat
deriving DecidableEq

instance {ε α : Type} [DecidableEq ε] [DecidableEq α] :
    DecidableEq (Except ε α) := fun a b =>
  match a, b with
  | .error e1, .error e2 =>
      if h : e1 = e2 then isTrue (by rw [h])
      else isFalse (by intro hc; cases hc; exact h rfl)
  | .error _, .ok _ => isFalse (by intro hc; cases hc)
  | .ok _, .error _ => isFalse (by intro hc; cases hc)
  | .ok s1, .ok s2 =>
      if h : s1 = s2 then isTrue (by rw [h])
      else isFalse (by intro hc; cases hc; exact h rfl)

/-- Outcome of a run: the write events performed before returning, and
either an error or the summary. -/
structure MainOut where
  trace : List Event
  result : Except MainErr MainSummary
deriving DecidableEq

/-- The member loop (MemberMerger.py:174-188): for each member in order,
check that both declared paths exist (raising `FileNotFoundError` before
anything of THAT member is written — but after earlier members' audit copies
were already written), copy the audit files, then load the task array
(raising `ValueError` on a non-array). -/
def processMembers : List MemberIn → List Event →
    List Event × Except MainErr (List (List Task) × List ZipArchive)
  | [], ev => (ev, .ok ([], []))
  | m :: rest, ev =>
      if m.jsonExists = false then (ev, .error .fileNotFound)
      else if m.zipExists = false then (ev, .error .fileNotFound)
      else
        let ev' := ev ++ [Event.copyJson m.mname, Event.copyZip m.mname]
        if m.jsonIsArray = false then (ev', .error .badTaskArray)
        else
          match processMembers rest ev' with
          | (ev'', .error e) => (ev'', .error e)
          | (ev'', .ok p) => (ev'', .ok (m.tasks :: p.1, m.zip :: p.2))

/-- `main()` (MemberMerger.py:145-205), over the digest models: validate the
contributor count, create the output directories, run the member loop, merge
and write the merged JSON, flatten the archives, write the merged ZIP. -/
def mainRun (digest6 : ResultEntry → String) (sha1 : List Nat → String)
    (members : List MemberIn) : MainOut :=
  if 2 ≤ members.length ∧ members.length ≤ 4 then
    match processMembers members
        [Event.mkdirE "Merger", Event.mkdirE "Merger/Individuals",
         Event.mkdirE "Merger/Temp"] with
    | (ev, .error e) => ⟨ev, .error e⟩
    | (ev, .ok p) =>
        let merged := (mergeLsTasks digest6 p.1).1
        let ev1 := ev ++ [Event.writeMergedJson]
        match (extractAndFlattenZips sha1 p.2).result with
        | .error _ => ⟨ev1, .error .badZip⟩
        | .ok ws =>
            ⟨ev1 ++ [Event.writeMergedZip], .ok ⟨merged.length, ws.1, ws.2⟩⟩
  else ⟨[], .error .badCount⟩

theorem processMembers_trace_shape :
    ∀ (members : List MemberIn) (ev : List Event),
      ∀ x ∈ (processMembers members ev).1,
        x ∈ ev ∨ ∃ n, x = Event.copyJson n ∨ x = Event.copyZip n := by
  intro members
  induction members with
  | nil => intro ev x hx; exact Or.inl hx
  | cons m rest ih =>
      intro ev x hx
      by_cases h1 : m.jsonExists = false
      · simp only [processMembers, if_pos h1] at hx
        exact Or.inl hx
      · by_cases h2 : m.zipExists = false
        · simp only [processMembers, if_neg h1, if_pos h2] at hx
          exact Or.inl hx
        · by_cases h3 : m.jsonIsArray = false
          · simp only [processMembers, if_neg h1, if_neg h2, if_pos h3] at hx
            rcases List.mem_append.mp hx with hx' | hx'
            · exact Or.inl hx'
            · right
              rcases List.mem_cons.mp hx' with rfl | hx''
              · exact ⟨m.mname, Or.inl rfl⟩
              · have : x = Event.copyZip m.mname := by simpa using hx''
                exact ⟨m.mname, Or.inr this⟩
          · simp only [processMembers, if_neg h1, if_neg h2, if_neg h3] at hx
            have hx2 : x ∈ (processMembers rest
                (ev ++ [Event.copyJson m.mname, Event.copyZip m.mname])).1 := by
              rcases hrec : processMembers rest
                  (ev ++ [Event.copyJson m.mname, Event.copyZip m.mname]) with
                ⟨ev'', res⟩
              rw [hrec] at hx
              cases res <;> simpa using hx
            rcases ih _ x hx2 with hx' | hx'
            · rcases List.mem_append.mp hx' with hx'' | hx''
              · exact Or.inl hx''
              · right
                rcases List.mem_cons.mp hx'' with rfl | hx'''
                · exact ⟨m.mname, Or.inl rfl⟩
                · have : x = Event.copyZip m.mname := by simpa using hx'''
                  exact ⟨m.mname, Or.inr this⟩
            · exact Or.inr hx'

theorem processMembers_missing_errors :
    ∀ (members : List MemberIn) (ev : List Event),
      (∃ m ∈ members, m.jsonExists = false ∨ m.zipExists = false) →
      ∃ e, (processMembers members ev).2 = .error e := by
  intro members
  induction members with
  | nil => intro ev h; simp at h
  | cons m rest ih =>
      intro ev h
      by_cases h1 : m.jsonExists = false
      · exact ⟨.fileNotFound, by simp [processMembers, h1]⟩
      · by_cases h2 : m.zipExists = false
        · exact ⟨.fileNotFound, by simp [processMembers, h1, h2]⟩
        · have hrest : ∃ m' ∈ rest, m'.jsonExists = false ∨ m'.zipExists = false := by
            obtain ⟨m', hm', hflag⟩ := h
            rcases List.mem_cons.mp hm' with rfl | hm''
            · rcases hflag with hf | hf
              · exact absurd hf h1
              · exact absurd hf h2
            · exact ⟨m', hm'', hflag⟩
          by_cases h3 : m.jsonIsArray = false
          · exact ⟨.badTaskArray, by simp [processMembers, h1, h2, h3]⟩
          · obtain ⟨e, he⟩ := ih
              (ev ++ [Event.copyJson m.mname, Event.copyZip m.mname]) hrest
            refine ⟨e, ?_⟩
            simp only [processMembers, if_neg h1, if_neg h2, if_neg h3]
            rcases hrec : processMembers rest
                (ev ++ [Event.copyJson m.mname, Event.copyZip m.mname]) with
              ⟨ev'', res⟩
            rw [hrec] at he
            cases res
            · simpa using he
            · simp at he

/-- C3 (amended): whenever some declared contributor file is missing, the
run aborts with an error and neither the merged JSON nor the merged archive
is ever written; however, output directories and audit copies of
contributors processed before the missing file may already have been
written (see the counterexample). -/
theorem main_missing_aborts (digest6 : ResultEntry → String)
    (sha1 : List Nat → String) (members : List MemberIn)
    (h : ∃ m ∈ members, m.jsonExists = false ∨ m.zipExists = false) :
    (∃ e, (mainRun digest6 sha1 members).result = .error e) ∧
    Event.writeMergedJson ∉ (mainRun digest6 sha1 members).trace ∧
    Event.writeMergedZip ∉ (mainRun digest6 sha1 members).trace := by
  by_cases hcount : 2 ≤ members.length ∧ members.length ≤ 4
  · obtain ⟨e, he⟩ := processMembers_missing_errors members
      [Event.mkdirE "Merger", Event.mkdirE "Merger/Individuals",
       Event.mkdirE "Merger/Temp"] h
    rcases hpm : processMembers members
        [Event.mkdirE "Merger", Event.mkdirE "Merger/Individuals",
         Event.mkdirE "Merger/Temp"] with ⟨ev, res⟩
    rw [hpm] at he
    simp only at he
    subst he
    have htrace : ∀ x ∈ ev, x ∈ [Event.mkdirE "Merger",
        Event.mkdirE "Merger/Individuals", Event.mkdirE "Merger/Temp"]
          ∨ ∃ n, x = Event.copyJson n ∨ x = Event.copyZip n := by
      intro x hx
      have := processMembers_trace_shape members
        [Event.mkdirE "Merger", Event.mkdirE "Merger/Individuals",
         Event.mkdirE "Merger/Temp"] x (by rw [hpm]; exact hx)
      exact this
    simp only [mainRun, if_pos hcount, hpm]
    refine ⟨⟨e, rfl⟩, ?_, ?_⟩
    · intro hmem
      rcases htrace _ hmem with hx | ⟨n, hx | hx⟩ <;> simp at hx
    · intro hmem
      rcases htrace _ hmem with hx | ⟨n, hx | hx⟩ <;> simp at hx
  · simp only [mainRun, if_neg hcount]
    exact ⟨⟨.badCount, rfl⟩, by simp, by simp⟩

/-- A contributor whose declared files exist and parse. -/
def cMemberOk : MemberIn := ⟨"A", true, true, true, [], ZipArchive.wellFormed []⟩

/-- A contributor whose JSON path does not exist. -/
def cMemberMissing : MemberIn :=
  ⟨"B", false, true, true, [], ZipArchive.wellFormed []⟩

/-- C3 counterexample: with contributor A valid and contributor B's JSON
missing, the run aborts — but A's audit copies and the output directories
were already written before the missing file was detected, so "no partial
work, nothing written before detection" is false. -/
theorem main_partial_work_cex :
    (mainRun (fun _ => "") (fun _ => "") [cMemberOk, cMemberMissing]).result
        = .error MainErr.fileNotFound ∧
    Event.copyJson "A"
        ∈ (mainRun (fun _ => "") (fun _ => "") [cMemberOk, cMemberMissing]).trace ∧
    Event.copyZip "A"
        ∈ (mainRun (fun _ => "") (fun _ => "") [cMemberOk, cMemberMissing]).trace ∧
    Event.mkdirE "Merger"
        ∈ (mainRun (fun _ => "") (fun _ => "") [cMemberOk, cMemberMissing]).trace := by
  decide

/-- Concrete instantiation of the amended C3. -/
theorem main_missing_aborts_witness :
    (∃ m ∈ [cMemberOk, cMemberMissing],
        m.jsonExists = false ∨ m.zipExists = false) ∧
    ((∃ e, (mainRun (fun _ => "") (fun _ => "")
        [cMemberOk, cMemberMissing]).result = .error e) ∧
     Event.writeMergedJson
        ∉ (mainRun (fun _ => "") (fun _ => "") [cMemberOk, cMemberMissing]).trace ∧
     Event.writeMergedZip
        ∉ (mainRun (fun _ => "") (fun _ => "") [cMemberOk, cMemberMissing]).trace) :=
  ⟨by decide, main_missing_aborts (fun _ => "") (fun _ => "")
    [cMemberOk, cMemberMissing] (by decide)⟩

end MM
